import Mathlib

/-!
Verification development for the Huobi inverse-swap gateway
(`vnpy_huobi/huobi_inverse_gateway.py`).

The Python source is shallowly embedded: pure fragments become Lean
functions, dictionary lookups that may raise `KeyError` become
`Option`-valued lookups, and each stateful handler becomes an explicit
state-passing function.  Prices, volumes and timestamps are modelled as
integers (only zero tests and copying of these values matter to the
handlers under study).
-/

namespace Huobi

/-- vn.py order status values (`vnpy.trader.constant.Status`). -/
inductive St where
  | submitting
  | notTraded
  | partTraded
  | allTraded
  | cancelled
  | rejected
  deriving DecidableEq, Repr

/-- vn.py order types (`vnpy.trader.constant.OrderType`). -/
inductive OT where
  | market
  | limit
  | fok
  | fak
  | stop
  deriving DecidableEq, Repr

/-- vn.py directions (`vnpy.trader.constant.Direction`). -/
inductive Dir where
  | long
  | short
  deriving DecidableEq, Repr

/-- vn.py offsets (`vnpy.trader.constant.Offset`). -/
inductive Off where
  | opening
  | closing
  deriving DecidableEq, Repr

/-- A key of the mixed-key Python dict `ORDERTYPE_HUOBIS2VT`
(holds both strings and integers). -/
inductive WireKey where
  | i (n : Int)
  | s (v : String)
  deriving DecidableEq, Repr

/-- `STATUS_HUOBIS2VT` — the wire-status to vn.py status dict,
a partial map; absent keys raise `KeyError` in Python, hence `none`. -/
def STATUS_HUOBIS2VT (n : Int) : Option St :=
  if n = 3 then some .notTraded
  else if n = 4 then some .partTraded
  else if n = 5 then some .cancelled
  else if n = 6 then some .allTraded
  else if n = 7 then some .cancelled
  else none

/-- `ORDERTYPE_HUOBIS2VT` — reverse order-type dict plus its legacy
integer and string aliases. -/
def ORDERTYPE_HUOBIS2VT (k : WireKey) : Option OT :=
  match k with
  | .s "opponent" => some .market
  | .s "limit" => some .limit
  | .s "fok" => some .fok
  | .s "ioc" => some .fak
  | .i 1 => some .limit
  | .i 3 => some .market
  | .i 4 => some .market
  | .i 5 => some .stop
  | .i 6 => some .limit
  | .s "lightning" => some .market
  | .s "optimal_5" => some .market
  | .s "optimal_10" => some .market
  | .s "optimal_20" => some .market
  | _ => none

/-- `DIRECTION_HUOBIS2VT` — reverse direction dict. -/
def DIRECTION_HUOBIS2VT (v : String) : Option Dir :=
  if v = "buy" then some .long
  else if v = "sell" then some .short
  else none

/-- `OFFSET_HUOBIS2VT` — reverse offset dict. -/
def OFFSET_HUOBIS2VT (v : String) : Option Off :=
  if v = "open" then some .opening
  else if v = "close" then some .closing
  else none

/-- Python truthiness of an optional integer field
(`None` and `0` are falsy). -/
def pyTruthyInt : Option Int → Bool
  | none => false
  | some n => n != 0

/-- One order row of an order push frame or of an open-order query
response (the fields both handlers read). -/
structure RawOrder where
  created_at : Int
  client_order_id : Option Int
  order_id : Int
  contract_code : String
  order_price_type : WireKey
  direction : String
  offset : String
  price : Int
  volume : Int
  trade_volume : Int
  status : Int
  deriving DecidableEq, Repr

/-- One trade row embedded in an order push frame. -/
structure RawTrade where
  id : Int
  trade_price : Int
  trade_volume : Int
  created_at : Int
  deriving DecidableEq, Repr

/-- The emitted vn.py order object (fields set by the handlers). -/
structure OrderData where
  symbol : String
  orderid : Int
  type : OT
  direction : Dir
  offset : Off
  price : Int
  volume : Int
  traded : Int
  status : St
  ts : Int
  deriving DecidableEq, Repr

/-- The emitted vn.py trade object. -/
structure TradeData where
  symbol : String
  orderid : Int
  tradeid : Int
  direction : Dir
  offset : Off
  price : Int
  volume : Int
  ts : Int
  deriving DecidableEq, Repr

/-- Order id preference shared by both handlers: client id when truthy,
exchange id otherwise. -/
def chooseOrderid (d : RawOrder) : Int :=
  if pyTruthyInt d.client_order_id then d.client_order_id.getD 0 else d.order_id

/-- `HuobiInverseTradeWebsocketApi.on_order`: maps one push payload to
an order update and its embedded trades; a failed dict lookup raises
(`none`) before anything is emitted. -/
def on_order (d : RawOrder) (trades : List RawTrade) :
    Option (OrderData × List TradeData) := do
  let ot ← ORDERTYPE_HUOBIS2VT d.order_price_type
  let dir ← DIRECTION_HUOBIS2VT d.direction
  let off ← OFFSET_HUOBIS2VT d.offset
  let st ← STATUS_HUOBIS2VT d.status
  let oid := chooseOrderid d
  let order : OrderData :=
    { symbol := d.contract_code, orderid := oid, type := ot, direction := dir,
      offset := off, price := d.price, volume := d.volume,
      traded := d.trade_volume, status := st, ts := d.created_at }
  let ts := trades.map fun t =>
    { symbol := order.symbol, orderid := order.orderid, tradeid := t.id,
      direction := order.direction, offset := order.offset,
      price := t.trade_price, volume := t.trade_volume,
      ts := t.created_at : TradeData }
  pure (order, ts)

/-- `HuobiInverseRestApi.on_query_order`: maps the rows of an open-order
query response; the first failed lookup raises, so no order list is
produced at all. -/
def on_query_order : List RawOrder → Option (List OrderData)
  | [] => some []
  | d :: ds =>
    match (on_order d []).map Prod.fst with
    | none => none
    | some o => (on_query_order ds).map (o :: ·)

/-- `HuobiInverseRestApi.cancel_order`: the outgoing cancel payload. -/
structure CancelData where
  contract_code : String
  client_order_id : Option Int
  order_id : Option Int
  deriving DecidableEq, Repr

/-- `HuobiInverseRestApi.cancel_order`: builds the cancel payload,
routing the numeric order id by magnitude. -/
def cancel_order (symbol : String) (orderid : Int) : CancelData :=
  if orderid > 1000000 then
    { contract_code := symbol, client_order_id := some orderid, order_id := none }
  else
    { contract_code := symbol, client_order_id := none, order_id := some orderid }

/-- A decoded WebSocket frame as far as `on_packet` inspects it
(fields are optional: absent keys are `none`). -/
structure Packet where
  ping : Option Int
  op : Option String
  ts : Option Int
  errMsg : Option String
  deriving DecidableEq, Repr

/-- The externally visible effect of dispatching one frame. -/
inductive Action where
  | barePong (v : Int)
  | opPong (ts : Option Int)
  | logMsg (m : String)
  | swallowed
  | login
  | dataFrame
  deriving DecidableEq, Repr

/-- `HuobiInverseWebsocketApiBase.on_error_msg`: the benign
invalid-pong message is swallowed, every other message is logged. -/
def on_error_msg (m : String) : Action :=
  if m = "invalid pong" then .swallowed else .logMsg m

/-- `HuobiInverseWebsocketApiBase.on_packet`: frame dispatch. -/
def on_packet (p : Packet) : Action :=
  match p.ping with
  | some v => .barePong v
  | none =>
    if p.op = some "ping" then .opPong p.ts
    else
      match p.errMsg with
      | some m => on_error_msg m
      | none =>
        if p.op = some "auth" then .login
        else .dataFrame

/-- The mutable per-symbol tick snapshot
(`vnpy.trader.object.TickData`; every numeric field defaults to 0;
the five bid and ask levels are kept as five-element lists). -/
structure TickSt where
  ts : Int
  openPrice : Int
  highPrice : Int
  lowPrice : Int
  lastPrice : Int
  volume : Int
  bidP : List Int
  bidV : List Int
  askP : List Int
  askV : List Int
  deriving DecidableEq, Repr

/-- The tick created by `subscribe`: all prices and volumes unset. -/
def initTick : TickSt :=
  { ts := 0, openPrice := 0, highPrice := 0, lowPrice := 0, lastPrice := 0,
    volume := 0,
    bidP := List.replicate 5 0, bidV := List.replicate 5 0,
    askP := List.replicate 5 0, askV := List.replicate 5 0 }

/-- A decoded depth frame: `bids` or `asks` may be absent. -/
structure DepthMsg where
  ts : Int
  bids : Option (List (Int × Int))
  asks : Option (List (Int × Int))
  deriving DecidableEq, Repr

/-- A decoded detail frame. -/
structure DetailMsg where
  ts : Int
  openPrice : Int
  highPrice : Int
  lowPrice : Int
  closePrice : Int
  vol : Int
  deriving DecidableEq, Repr

/-- The indexed level-setting loop
(`for n in range(min(5, len(entries)))`). -/
def setLevels : Nat → List (Int × Int) → List Int → List Int → List Int × List Int
  | _, [], ps, vs => (ps, vs)
  | n, e :: es, ps, vs =>
    if n < 5 then setLevels (n + 1) es (ps.set n e.1) (vs.set n e.2)
    else (ps, vs)

/-- `HuobiInverseDataWebsocketApi.on_market_depth`: updates the
snapshot and returns the emitted copy, if any.  The timestamp is
written before the bids/asks presence check; a frame missing either
side returns early; otherwise up to five levels per side are written
and a copy is emitted when the last price is truthy. -/
def on_market_depth (t : TickSt) (m : DepthMsg) : TickSt × Option TickSt :=
  let t0 := { t with ts := m.ts }
  match m.bids, m.asks with
  | some bs, some asks =>
    let bl := setLevels 0 bs t0.bidP t0.bidV
    let al := setLevels 0 asks t0.askP t0.askV
    let t1 := { t0 with bidP := bl.1, bidV := bl.2, askP := al.1, askV := al.2 }
    (t1, if t1.lastPrice ≠ 0 then some t1 else none)
  | _, _ => (t0, none)

/-- The first bid price of the snapshot (field `bid_price_1`). -/
def bid1 (t : TickSt) : Int :=
  match t.bidP with
  | [] => 0
  | p :: _ => p

/-- The first ask price of the snapshot (field `ask_price_1`). -/
def ask1 (t : TickSt) : Int :=
  match t.askP with
  | [] => 0
  | p :: _ => p

/-- `HuobiInverseDataWebsocketApi.on_market_detail`: writes the OHLCV
fields and emits a copy when the first bid price is truthy. -/
def on_market_detail (t : TickSt) (m : DetailMsg) : TickSt × Option TickSt :=
  let t1 := { t with ts := m.ts, openPrice := m.openPrice,
                     highPrice := m.highPrice, lowPrice := m.lowPrice,
                     lastPrice := m.closePrice, volume := m.vol }
  (t1, if bid1 t1 ≠ 0 then some t1 else none)

/-- A market push frame for one symbol. -/
inductive MktMsg where
  | depth (m : DepthMsg)
  | detail (m : DetailMsg)
  deriving DecidableEq, Repr

/-- One dispatch step of the market data handler. -/
def mktStep (t : TickSt) : MktMsg → TickSt × Option TickSt
  | .depth m => on_market_depth t m
  | .detail m => on_market_detail t m

/-- Processing a frame sequence, collecting the emitted snapshots. -/
def mktRun (t : TickSt) : List MktMsg → TickSt × List TickSt
  | [] => (t, [])
  | m :: ms =>
    let s := mktStep t m
    let r := mktRun s.1 ms
    (r.1, match s.2 with | some e => e :: r.2 | none => r.2)

/-- An order tracked by the batch-order request (`request.extra`);
only the status field is ever mutated by the response handler. -/
structure BOrder where
  orderid : Int
  status : St
  deriving DecidableEq, Repr

/-- One element of the per-index error list of a batch-order
response. -/
structure ErrEntry where
  index : Nat
  err_code : Int
  err_msg : String
  deriving DecidableEq, Repr

/-- Marking one order rejected. -/
def rejectOrd (o : BOrder) : BOrder := { o with status := St.rejected }

/-- The error loop of `on_send_orders`: for each error entry, the
indexed order is set to rejected and re-emitted; an out-of-range index
raises `IndexError` (`none`). -/
def applyErrors : List BOrder → List ErrEntry → Option (List BOrder × List BOrder)
  | os, [] => some (os, [])
  | os, e :: es =>
    match os[e.index]? with
    | none => none
    | some o =>
      let os2 := os.set e.index (rejectOrd o)
      match applyErrors os2 es with
      | none => none
      | some r => some (r.1, rejectOrd o :: r.2)

/-- `HuobiInverseRestApi.on_send_orders`: a falsy errors field
(absent or empty) leaves every order untouched and emits nothing. -/
def on_send_orders (os : List BOrder) (errors : Option (List ErrEntry)) :
    Option (List BOrder × List BOrder) :=
  match errors with
  | none => some (os, [])
  | some [] => some (os, [])
  | some errs => applyErrors os errs

/-- An entry of the cached position dictionary
(`vnpy.trader.object.PositionData`, the fields the handler touches). -/
structure PosData where
  symbol : String
  direction : Dir
  volume : Int
  frozen : Int
  price : Int
  pnl : Int
  deriving DecidableEq, Repr

/-- One row of a position-query response. -/
structure PosEntry where
  contract_code : String
  direction : String
  volume : Int
  frozen : Int
  cost_hold : Int
  profit : Int
  deriving DecidableEq, Repr

/-- The cache key built by the handler. -/
def entryKey (d : PosEntry) : String := d.contract_code ++ "_" ++ d.direction

/-- The zeroing pass applied to a cached position before a refresh. -/
def zeroPos (p : PosData) : PosData :=
  { p with volume := 0, frozen := 0, price := 0, pnl := 0 }

/-- Association-list lookup modelling a Python dict read. -/
def alistGet {b : Type} : List (String × b) → String → Option b
  | [], _ => none
  | p :: ps, k => if p.1 = k then some p.2 else alistGet ps k

/-- Association-list write modelling a Python dict assignment. -/
def alistSet {b : Type} : List (String × b) → String → b → List (String × b)
  | [], k, v => [(k, v)]
  | p :: ps, k, v => if p.1 = k then (k, v) :: ps else p :: alistSet ps k v

/-- The fetch-or-create step of the position loop: the cached entry if
present, otherwise a fresh position whose direction is translated from
the wire code (an untranslatable code raises `KeyError`). -/
def posBase (cache : List (String × PosData)) (d : PosEntry) : Option PosData :=
  match alistGet cache (entryKey d) with
  | some p => some p
  | none =>
    match DIRECTION_HUOBIS2VT d.direction with
    | none => none
    | some dir =>
      some { symbol := d.contract_code, direction := dir,
             volume := 0, frozen := 0, price := 0, pnl := 0 }

/-- The per-row loop of `on_query_position`: a cached position is
fetched (or created), then its four numeric fields are overwritten
with the reported values. -/
def applyPosEntries : List (String × PosData) → List PosEntry →
    Option (List (String × PosData))
  | cache, [] => some cache
  | cache, d :: ds =>
    match posBase cache d with
    | none => none
    | some p =>
      applyPosEntries
        (alistSet cache (entryKey d)
          { p with volume := d.volume, frozen := d.frozen,
                   price := d.cost_hold, pnl := d.profit }) ds

/-- `HuobiInverseRestApi.on_query_position`: on an error response
nothing happens; otherwise every cache entry is zeroed, the reported
rows are written over the cache, and finally every cached position is
emitted. -/
def on_query_position (isError : Bool) (cache : List (String × PosData))
    (entries : List PosEntry) :
    Option (List (String × PosData) × List PosData) :=
  if isError then some (cache, [])
  else
    let zeroed := cache.map fun kv => (kv.1, zeroPos kv.2)
    match applyPosEntries zeroed entries with
    | none => none
    | some c => some (c, c.map Prod.snd)

/-- Code-point lexicographic comparison of character lists, as Python
compares strings. -/
def charListLt : List Char → List Char → Bool
  | [], [] => false
  | [], _ :: _ => true
  | _ :: _, [] => false
  | a :: as, b :: bs =>
    if a.toNat < b.toNat then true
    else if a.toNat = b.toNat then charListLt as bs
    else false

/-- Strict lexicographic order on strings. -/
def strLt (a b : String) : Bool := charListLt a.data b.data

/-- Lexicographic order on strings. -/
def strLe (a b : String) : Bool := strLt a b || a == b

/-- Tuple comparison on parameter pairs, as Python `sorted` compares
pairs of strings. -/
def pairLe (a b : String × String) : Prop :=
  strLt a.1 b.1 = true ∨ (a.1 = b.1 ∧ strLe a.2 b.2 = true)

instance : DecidableRel pairLe := fun a b =>
  inferInstanceAs
    (Decidable (strLt a.1 b.1 = true ∨ (a.1 = b.1 ∧ strLe a.2 b.2 = true)))

lemma char_toNat_inj {a b : Char} (h : a.toNat = b.toNat) : a = b := by
  have h2 := congrArg Char.ofNat h
  rwa [Char.ofNat_toNat, Char.ofNat_toNat] at h2

lemma charListLt_irrefl : ∀ as, charListLt as as = false
  | [] => rfl
  | a :: as => by simp [charListLt, charListLt_irrefl as]

lemma charListLt_trans : ∀ as bs cs, charListLt as bs = true →
    charListLt bs cs = true → charListLt as cs = true
  | [], _ :: _, _ :: _, _, _ => rfl
  | a :: as, b :: bs, c :: cs, h1, h2 => by
    simp only [charListLt] at h1 h2 ⊢
    split_ifs at h1 h2 ⊢ with g1 g2 g3 g4 g5 g6 <;> try omega
    all_goals try rfl
    exact charListLt_trans as bs cs h1 h2

lemma charListLt_conn : ∀ as bs, charListLt as bs = false →
    charListLt bs as = false → as = bs
  | [], [], _, _ => rfl
  | a :: as, b :: bs, h1, h2 => by
    simp only [charListLt] at h1 h2
    split_ifs at h1 h2 with g1 g2 g3 g4 <;> try omega
    have hab : a = b := char_toNat_inj g2
    rw [hab, charListLt_conn as bs h1 h2]

lemma charListLt_asymm (as bs : List Char) (h : charListLt as bs = true) :
    charListLt bs as = false := by
  by_contra hc
  have hc2 : charListLt bs as = true := by
    cases hcc : charListLt bs as
    · exact absurd hcc hc
    · rfl
  have := charListLt_trans as bs as h hc2
  rw [charListLt_irrefl] at this
  exact Bool.false_ne_true this

lemma strLt_asymm (a b : String) (h : strLt a b = true) : strLt b a = false :=
  charListLt_asymm a.data b.data h

lemma strLt_irrefl (a : String) : strLt a a = false := charListLt_irrefl a.data

lemma strLt_conn (a b : String) (h1 : strLt a b = false)
    (h2 : strLt b a = false) : a = b := by
  have hd := charListLt_conn a.data b.data h1 h2
  cases a
  cases b
  exact congrArg String.mk hd

lemma strLt_trans (a b c : String) (h1 : strLt a b = true)
    (h2 : strLt b c = true) : strLt a c = true :=
  charListLt_trans a.data b.data c.data h1 h2

instance pairLe_total : IsTotal (String × String) pairLe := ⟨by
  intro a b
  by_cases h1 : strLt a.1 b.1 = true
  · exact Or.inl (Or.inl h1)
  by_cases h2 : strLt b.1 a.1 = true
  · exact Or.inr (Or.inl h2)
  have he : a.1 = b.1 :=
    strLt_conn _ _ (Bool.not_eq_true _ ▸ h1) (Bool.not_eq_true _ ▸ h2)
  by_cases h3 : strLt a.2 b.2 = true
  · exact Or.inl (Or.inr ⟨he, by simp [strLe, h3]⟩)
  by_cases h4 : strLt b.2 a.2 = true
  · exact Or.inr (Or.inr ⟨he.symm, by simp [strLe, h4]⟩)
  have he2 : a.2 = b.2 :=
    strLt_conn _ _ (Bool.not_eq_true _ ▸ h3) (Bool.not_eq_true _ ▸ h4)
  exact Or.inl (Or.inr ⟨he, by simp [strLe, he2]⟩)⟩

lemma strLe_cases {a b : String} (h : strLe a b = true) :
    strLt a b = true ∨ a = b := by
  rcases Bool.or_eq_true_iff.mp h with h2 | h2
  · exact Or.inl h2
  · exact Or.inr (eq_of_beq h2)

instance pairLe_trans : IsTrans (String × String) pairLe := ⟨by
  intro a b c hab hbc
  rcases hab with h1 | ⟨h1, v1⟩
  · rcases hbc with h2 | ⟨h2, v2⟩
    · exact Or.inl (strLt_trans _ _ _ h1 h2)
    · exact Or.inl (h2 ▸ h1)
  · rcases hbc with h2 | ⟨h2, v2⟩
    · exact Or.inl (h1 ▸ h2)
    · refine Or.inr ⟨h1.trans h2, ?_⟩
      rcases strLe_cases v1 with h3 | h3
      · rcases strLe_cases v2 with h4 | h4
        · simp [strLe, strLt_trans _ _ _ h3 h4]
        · simp [strLe, h4 ▸ h3]
      · rcases strLe_cases v2 with h4 | h4
        · simp [strLe, h3 ▸ h4]
        · simp [strLe, h3.trans h4]⟩

instance pairLe_antisymm : IsAntisymm (String × String) pairLe := ⟨by
  intro a b hab hba
  rcases hab with h1 | ⟨h1, v1⟩
  · rcases hba with h2 | ⟨h2, v2⟩
    · rw [strLt_asymm _ _ h1] at h2
      exact absurd h2 Bool.false_ne_true
    · rw [h2, strLt_irrefl] at h1
      exact absurd h1 Bool.false_ne_true
  · rcases hba with h2 | ⟨h2, v2⟩
    · rw [h1, strLt_irrefl] at h2
      exact absurd h2 Bool.false_ne_true
    · have hv : a.2 = b.2 := by
        rcases strLe_cases v1 with h3 | h3
        · rcases strLe_cases v2 with h4 | h4
          · rw [strLt_asymm _ _ h3] at h4
            exact absurd h4 Bool.false_ne_true
          · exact h4.symm
        · exact h3
      cases a
      cases b
      simp only [Prod.mk.injEq]
      exact ⟨h1, hv⟩⟩

/-- UTF-8 bytes of one character. -/
def utf8Bytes (c : Char) : List Nat :=
  let n := c.toNat
  if n < 128 then [n]
  else if n < 2048 then [192 + n / 64, 128 + n % 64]
  else if n < 65536 then
    [224 + n / 4096, 128 + n / 64 % 64, 128 + n % 64]
  else
    [240 + n / 262144, 128 + n / 4096 % 64, 128 + n / 64 % 64, 128 + n % 64]

/-- The bytes `urllib.parse.quote_plus` leaves unescaped
(letters, digits and the characters underscore, dot, dash, tilde). -/
def isSafeByte (b : Nat) : Bool :=
  (48 ≤ b && b ≤ 57) || (65 ≤ b && b ≤ 90) || (97 ≤ b && b ≤ 122) ||
    b == 95 || b == 46 || b == 45 || b == 126

/-- Uppercase hexadecimal digit. -/
def hexDigit (n : Nat) : Char :=
  (['0', '1', '2', '3', '4', '5', '6', '7', '8', '9',
    'A', 'B', 'C', 'D', 'E', 'F']).getD n '0'

/-- `quote_plus` on one byte: space becomes a plus, safe bytes stay,
the rest are percent-escaped. -/
def quoteByte (b : Nat) : List Char :=
  if b = 32 then ['+']
  else if isSafeByte b then [Char.ofNat b]
  else ['%', hexDigit (b / 16), hexDigit (b % 16)]

/-- `urllib.parse.quote_plus` of a string. -/
def quotePlus (s : String) : String :=
  ⟨(s.data.map fun c => (utf8Bytes c).map quoteByte).flatten.flatten⟩

/-- `urllib.parse.urlencode` on an ordered pair list. -/
def urlencode (l : List (String × String)) : String :=
  String.intercalate "&" (l.map fun p => quotePlus p.1 ++ "=" ++ quotePlus p.2)

/-- The four mandatory signing fields, in their written order. -/
def baseParams (api ts : String) : List (String × String) :=
  [("AccessKeyId", api), ("SignatureMethod", "HmacSHA256"),
   ("SignatureVersion", "2"), ("Timestamp", ts)]

/-- The parameter list serialized into the signing payload: the
mandatory fields, merged with the supplied query parameters and
re-sorted as tuples when any are supplied (a falsy `get_params` skips
both steps). -/
def signParams (api ts : String) (gp : List (String × String)) :
    List (String × String) :=
  if gp.isEmpty then baseParams api ts
  else List.insertionSort pairLe (baseParams api ts ++ gp)

/-- The newline-joined payload handed to HMAC-SHA256. -/
def payloadOf (method host path : String) (l : List (String × String)) :
    String :=
  method ++ "\n" ++ host ++ "\n" ++ path ++ "\n" ++ urlencode l

/-- `dict(pairs)`: repeated dict assignment over the pair list. -/
def pyDict (l : List (String × String)) : List (String × String) :=
  l.foldl (fun acc p => alistSet acc p.1 p.2) []

/-- `create_signature`: the returned mapping is the deduplicated
sorted parameter list plus a Signature entry.  The HMAC-SHA256 plus
base64 primitive of the standard library is abstracted as `hmacB64`
(any function of the secret key and the payload). -/
def create_signature (hmacB64 : String → String → String)
    (api method host path secret ts : String)
    (gp : List (String × String)) : List (String × String) :=
  let sp := signParams api ts gp
  let payload := payloadOf method host path sp
  alistSet (pyDict sp) "Signature" (hmacB64 secret payload)

/-- The value of the last pair holding a given key. -/
def lookupLast : List (String × String) → String → Option String
  | [], _ => none
  | p :: ps, k =>
    match lookupLast ps k with
    | some v => some v
    | none => if p.1 = k then some p.2 else none

/-- Decimal digit list of a natural number, most significant digit
first: the digits of the Python f-string of the number (fuel-based
structural recursion). -/
def decDigitsAux : Nat → Nat → List Nat
  | 0, _ => []
  | fuel + 1, n => if n < 10 then [n] else decDigitsAux fuel (n / 10) ++ [n % 10]

/-- Decimal digit list of a natural number. -/
def decDigits (n : Nat) : List Nat := decDigitsAux (n + 1) n

/-- Numeric value of a decimal digit list. -/
def digitsVal (l : List Nat) : Nat := Nat.ofDigits 10 l.reverse

/-- The id-generator state of `HuobiInverseRestApi`: the connection
epoch and the mutex-protected counter. -/
structure GenState where
  connect_time : Nat
  order_count : Nat
  deriving DecidableEq, Repr

/-- The state set up by `__init__` and `connect`: the counter starts
at 10000. -/
def initGen (epoch : Nat) : GenState := ⟨epoch, 10000⟩

/-- `new_local_orderid`: increments the counter and returns the epoch
digits followed by the counter digits (the f-string concatenation of
the two numbers). -/
def new_local_orderid (s : GenState) : GenState × List Nat :=
  let c := s.order_count + 1
  (⟨s.connect_time, c⟩, decDigits s.connect_time ++ decDigits c)

/-- The ids returned by n successive generator calls. -/
def genIds (s : GenState) : Nat → List (List Nat)
  | 0 => []
  | n + 1 =>
    let r := new_local_orderid s
    r.2 :: genIds r.1 n

/-- One kline row of a history response (the fields the paginator
reads, with the datetime kept as the epoch-second id). -/
structure KBar where
  id : Int
  openP : Int
  highP : Int
  lowP : Int
  closeP : Int
  vol : Int
  deriving DecidableEq, Repr

/-- One HTTP response of the kline endpoint: a status code and the
parsed row list (`none` models a falsy JSON body). -/
structure KResp where
  status : Nat
  data : Option (List KBar)
  deriving DecidableEq, Repr

/-- The row list of a response. -/
def pageBars (r : KResp) : List KBar := r.data.getD []

/-- The timestamp of the last row of a response. -/
def pageLastTs (r : KResp) : Int :=
  match r.data with
  | some (b :: bs) => (bs.getLastD b).id
  | _ => 0

/-- The rows the paginator appends from a response: nothing from a
non-2xx response, the parsed rows otherwise. -/
def consumedBars (r : KResp) : List KBar :=
  if r.status / 100 = 2 then pageBars r else []

/-- A response that keeps the loop going: 2xx with at least 1999
rows. -/
def pageFullB (r : KResp) : Bool :=
  (r.status / 100 == 2) &&
    match r.data with
    | some l => decide (1999 ≤ l.length)
    | none => false

/-- `HuobiInverseRestApi.query_history`: the while-True pagination
loop, fuel-indexed (`none` when the fuel runs out before a stop
condition).  `pages` is the endpoint, indexed by request number;
`delta` is the bar interval in seconds.  Returns the accumulated bars
and the list of requested (from, to) windows. -/
def query_history (pages : Nat → KResp) (delta : Int) :
    Nat → Nat → Int → Option (List KBar × List (Int × Int))
  | 0, _, _ => none
  | fuel + 1, i, start =>
    let endT := start + delta * 1999
    if (pages i).status / 100 ≠ 2 then some ([], [(start, endT)])
    else
      match (pages i).data with
      | none => some ([], [(start, endT)])
      | some [] => some ([], [(start, endT)])
      | some (b :: bs) =>
        if (b :: bs).length < 1999 then some (b :: bs, [(start, endT)])
        else
          match query_history pages delta fuel (i + 1) ((bs.getLastD b).id) with
          | none => none
          | some r2 => some (b :: bs ++ r2.1, (start, endT) :: r2.2)

/-- A sample bar for the pagination scenario. -/
def sampleBar : KBar := ⟨0, 0, 0, 0, 0, 0⟩

/-- The mocked endpoint of the pagination scenario: three pages of
exactly 1999 bars, then one page of 500 bars. -/
def pagesEx : Nat → KResp := fun n =>
  if n < 3 then ⟨200, some (List.replicate 1999 sampleBar)⟩
  else ⟨200, some (List.replicate 500 sampleBar)⟩

end Huobi

namespace Huobi

/-- C1: cancel routing sends ids strictly above 1000000 as the client
order id field, ids at or below 1000000 (including 1000000 itself) as
the exchange order id field, and exactly one of the two fields is set. -/
theorem c1_cancel_order_routing (symbol : String) (n : Int) :
    (n > 1000000 →
      cancel_order symbol n =
        { contract_code := symbol, client_order_id := some n, order_id := none }) ∧
    (n ≤ 1000000 →
      cancel_order symbol n =
        { contract_code := symbol, client_order_id := none, order_id := some n }) ∧
    ((cancel_order symbol n).client_order_id.isSome ↔
      ¬ (cancel_order symbol n).order_id.isSome) := by
  unfold cancel_order
  by_cases h : n > 1000000 <;> simp [h]

/-- C1 witness: the boundary points 999999, 1000000 and 1000001. -/
theorem c1_cancel_order_routing_witness :
    cancel_order "BTC-USD" 999999 =
      { contract_code := "BTC-USD", client_order_id := none, order_id := some 999999 } ∧
    cancel_order "BTC-USD" 1000000 =
      { contract_code := "BTC-USD", client_order_id := none, order_id := some 1000000 } ∧
    cancel_order "BTC-USD" 1000001 =
      { contract_code := "BTC-USD", client_order_id := some 1000001, order_id := none } :=
  ⟨(c1_cancel_order_routing "BTC-USD" 999999).2.1 (by decide),
   (c1_cancel_order_routing "BTC-USD" 1000000).2.1 (by decide),
   (c1_cancel_order_routing "BTC-USD" 1000001).1 (by decide)⟩

/-- C9: dispatch precedence of `on_packet` — bare ping echoes a bare
pong; else an op-tagged ping echoes an op-tagged pong with the same ts;
else an error-message frame is routed to error handling where exactly
the message invalid pong is swallowed and every other message logged;
else an auth frame invokes the post-login hook; else the frame goes to
the data handler. -/
theorem c9_on_packet_dispatch (p : Packet) :
    (∀ v, p.ping = some v → on_packet p = .barePong v) ∧
    (p.ping = none → p.op = some "ping" → on_packet p = .opPong p.ts) ∧
    (p.ping = none → p.op ≠ some "ping" →
      p.errMsg = some "invalid pong" → on_packet p = .swallowed) ∧
    (p.ping = none → p.op ≠ some "ping" → ∀ m, p.errMsg = some m →
      m ≠ "invalid pong" → on_packet p = .logMsg m) ∧
    (p.ping = none → p.op ≠ some "ping" → p.errMsg = none →
      p.op = some "auth" → on_packet p = .login) ∧
    (p.ping = none → p.op ≠ some "ping" → p.errMsg = none →
      p.op ≠ some "auth" → on_packet p = .dataFrame) := by
  obtain ⟨ping, op, ts, errMsg⟩ := p
  refine ⟨?_, ?_, ?_, ?_, ?_, ?_⟩
  · rintro v rfl; rfl
  · rintro rfl rfl; rfl
  · rintro rfl hop rfl
    simp [on_packet, on_error_msg, hop]
  · rintro rfl hop m rfl hm
    simp [on_packet, on_error_msg, hop, hm]
  · rintro rfl hop rfl rfl
    simp [on_packet, hop]
  · rintro rfl hop rfl hauth
    simp [on_packet, hop, hauth]

/-- C9 witness: concrete frames exercising each dispatch branch. -/
theorem c9_on_packet_dispatch_witness :
    on_packet ⟨some 7, some "ping", some 3, some "boom"⟩ = .barePong 7 ∧
    on_packet ⟨none, some "ping", some 3, some "boom"⟩ = .opPong (some 3) ∧
    on_packet ⟨none, none, none, some "invalid pong"⟩ = .swallowed ∧
    on_packet ⟨none, none, none, some "boom"⟩ = .logMsg "boom" ∧
    on_packet ⟨none, some "auth", none, none⟩ = .login ∧
    on_packet ⟨none, some "sub", none, none⟩ = .dataFrame :=
  ⟨(c9_on_packet_dispatch _).1 7 rfl,
   (c9_on_packet_dispatch _).2.1 rfl rfl,
   (c9_on_packet_dispatch _).2.2.1 rfl (by decide) rfl,
   (c9_on_packet_dispatch _).2.2.2.1 rfl (by decide) "boom" rfl (by decide),
   (c9_on_packet_dispatch _).2.2.2.2.1 rfl (by decide) rfl rfl,
   (c9_on_packet_dispatch _).2.2.2.2.2 rfl (by decide) rfl (by decide)⟩

/-- A depth update never changes the last price. -/
lemma on_market_depth_lastPrice (t : TickSt) (m : DepthMsg) :
    (on_market_depth t m).1.lastPrice = t.lastPrice := by
  unfold on_market_depth
  rcases m.bids with _ | bs <;> rcases m.asks with _ | asks <;> rfl

/-- A detail update never changes the bid levels. -/
lemma on_market_detail_bidP (t : TickSt) (m : DetailMsg) :
    (on_market_detail t m).1.bidP = t.bidP := rfl

/-- With an unset last price, a run of pure depth updates emits
nothing and keeps the last price unset. -/
lemma mktRun_depth_only (msgs : List MktMsg) :
    ∀ t : TickSt, (∀ m ∈ msgs, ∃ d, m = MktMsg.depth d) → t.lastPrice = 0 →
      (mktRun t msgs).2 = [] ∧ (mktRun t msgs).1.lastPrice = 0 := by
  induction msgs with
  | nil => intro t _ hl; exact ⟨rfl, hl⟩
  | cons m ms ih =>
    intro t hall hl
    obtain ⟨d, rfl⟩ := hall m (List.mem_cons_self m ms)
    have hstep : (mktStep t (MktMsg.depth d)).1.lastPrice = 0 := by
      simpa [mktStep, on_market_depth_lastPrice]
    have hemit : (mktStep t (MktMsg.depth d)).2 = none := by
      simp only [mktStep, on_market_depth]
      rcases hb : d.bids with _ | bs <;> rcases ha : d.asks with _ | asks <;>
        simp_all [on_market_depth_lastPrice]
    have ihr := ih (mktStep t (MktMsg.depth d)).1
      (fun m hm => hall m (List.mem_cons_of_mem _ hm)) hstep
    simp [mktRun, hemit, ihr.1, ihr.2]

/-- With an unset first bid price, a run of pure detail updates emits
nothing and keeps the bid levels unchanged. -/
lemma mktRun_detail_only (msgs : List MktMsg) :
    ∀ t : TickSt, (∀ m ∈ msgs, ∃ d, m = MktMsg.detail d) → bid1 t = 0 →
      (mktRun t msgs).2 = [] ∧ (mktRun t msgs).1.bidP = t.bidP := by
  induction msgs with
  | nil => intro t _ _; exact ⟨rfl, rfl⟩
  | cons m ms ih =>
    intro t hall hb
    obtain ⟨d, rfl⟩ := hall m (List.mem_cons_self m ms)
    have hstep : (mktStep t (MktMsg.detail d)).1.bidP = t.bidP :=
      on_market_detail_bidP t d
    have hemit : (mktStep t (MktMsg.detail d)).2 = none := by
      simp [mktStep, on_market_detail, bid1] at hb ⊢
      exact hb
    have ihr := ih (mktStep t (MktMsg.detail d)).1
      (fun m hm => hall m (List.mem_cons_of_mem _ hm))
      (by unfold bid1; rw [hstep]; exact hb)
    refine ⟨by simp [mktRun, hemit, ihr.1], ?_⟩
    simp [mktRun, ihr.2, hstep]

/-- C2 counterexample: a depth frame with an empty bid list but a
nonempty ask list sets a depth level; a following detail frame sets a
nonzero last price.  Both a detail update and a depth level now exist,
yet the next detail update emits nothing (the handler tests only the
first bid price), refuting the claim that once both exist every
subsequent update emits a snapshot. -/
theorem c2_tick_readiness_counterexample :
    ((mktRun initTick [MktMsg.depth ⟨1, some [], some [(9, 2)]⟩,
        MktMsg.detail ⟨2, 1, 1, 1, 5, 3⟩]).1.lastPrice ≠ 0 ∧
     ask1 (mktRun initTick [MktMsg.depth ⟨1, some [], some [(9, 2)]⟩,
        MktMsg.detail ⟨2, 1, 1, 1, 5, 3⟩]).1 ≠ 0) ∧
    (mktStep (mktRun initTick [MktMsg.depth ⟨1, some [], some [(9, 2)]⟩,
        MktMsg.detail ⟨2, 1, 1, 1, 5, 3⟩]).1 (MktMsg.detail ⟨3, 1, 1, 1, 6, 3⟩)).2
      = none ∧
    (mktRun initTick [MktMsg.depth ⟨1, some [], some [(9, 2)]⟩,
        MktMsg.detail ⟨2, 1, 1, 1, 5, 3⟩,
        MktMsg.detail ⟨3, 1, 1, 1, 6, 3⟩]).2 = [] := by
  decide

/-- C2 amended: a depth update emits exactly when it carries both a
bids and an asks field and the last price is nonzero, a detail update
emits exactly when the first bid price is nonzero, every emission is a
copy of the updated snapshot, and from the initial tick a sequence of
depth-only updates, or of detail-only updates, emits nothing. -/
theorem c2_tick_readiness (t : TickSt) (dm : DepthMsg) (dt : DetailMsg)
    (msgs : List MktMsg) :
    ((on_market_depth t dm).2 ≠ none ↔
      (dm.bids ≠ none ∧ dm.asks ≠ none ∧ t.lastPrice ≠ 0)) ∧
    ((on_market_depth t dm).2 = none ∨
      (on_market_depth t dm).2 = some (on_market_depth t dm).1) ∧
    ((on_market_detail t dt).2 ≠ none ↔ bid1 t ≠ 0) ∧
    ((on_market_detail t dt).2 = some (on_market_detail t dt).1 ∨
      (on_market_detail t dt).2 = none) ∧
    ((∀ m ∈ msgs, ∃ d, m = MktMsg.depth d) → (mktRun initTick msgs).2 = []) ∧
    ((∀ m ∈ msgs, ∃ d, m = MktMsg.detail d) → (mktRun initTick msgs).2 = []) := by
  refine ⟨?_, ?_, ?_, ?_, ?_, ?_⟩
  · unfold on_market_depth
    rcases dm.bids with _ | bs <;> rcases dm.asks with _ | asks <;>
      simp [on_market_depth_lastPrice]
  · unfold on_market_depth
    rcases dm.bids with _ | bs <;> rcases dm.asks with _ | asks <;> simp
    exact Classical.em _
  · obtain ⟨tts, o, hi, lo, la, vo, bp, bv, ap, av⟩ := t
    rcases bp with _ | ⟨p, rest⟩
    · simp [on_market_detail, bid1]
    · by_cases hp : p = 0 <;> simp [on_market_detail, bid1, hp]
  · obtain ⟨tts, o, hi, lo, la, vo, bp, bv, ap, av⟩ := t
    rcases bp with _ | ⟨p, rest⟩
    · simp [on_market_detail, bid1]
    · by_cases hp : p = 0 <;> simp [on_market_detail, bid1, hp]
  · intro h
    exact (mktRun_depth_only msgs initTick h rfl).1
  · intro h
    exact (mktRun_detail_only msgs initTick h rfl).1

/-- C2 amended witness: concrete frames exercising the emission
conditions and the two no-emission runs. -/
theorem c2_tick_readiness_witness :
    (mktRun initTick [MktMsg.depth ⟨1, some [(2, 3)], some [(4, 5)]⟩]).2 = [] ∧
    (mktRun initTick [MktMsg.detail ⟨1, 1, 1, 1, 5, 3⟩]).2 = [] := by
  refine ⟨?_, ?_⟩
  · exact (c2_tick_readiness initTick ⟨1, none, none⟩ ⟨1, 1, 1, 1, 5, 3⟩
      [MktMsg.depth ⟨1, some [(2, 3)], some [(4, 5)]⟩]).2.2.2.2.1
      (by rintro m hm; simp at hm; exact ⟨_, hm⟩)
  · exact (c2_tick_readiness initTick ⟨1, none, none⟩ ⟨1, 1, 1, 1, 5, 3⟩
      [MktMsg.detail ⟨1, 1, 1, 1, 5, 3⟩]).2.2.2.2.2
      (by rintro m hm; simp at hm; exact ⟨_, hm⟩)

/-- C10: the wire-status map is defined exactly on the codes 3, 4, 5,
6, 7; codes 5 and 7 both map to cancelled; no code maps to rejected;
and an order payload whose status, order-type, direction or offset code
is unmapped makes the handlers raise instead of emitting. -/
theorem c10_status_map_domain (n : Int) (d : RawOrder) (tr : List RawTrade)
    (rows : List RawOrder) :
    ((STATUS_HUOBIS2VT n).isSome ↔ n = 3 ∨ n = 4 ∨ n = 5 ∨ n = 6 ∨ n = 7) ∧
    (STATUS_HUOBIS2VT 5 = some .cancelled ∧ STATUS_HUOBIS2VT 7 = some .cancelled) ∧
    (STATUS_HUOBIS2VT n ≠ some .rejected) ∧
    (STATUS_HUOBIS2VT d.status = none → on_order d tr = none) ∧
    (ORDERTYPE_HUOBIS2VT d.order_price_type = none → on_order d tr = none) ∧
    (DIRECTION_HUOBIS2VT d.direction = none → on_order d tr = none) ∧
    (OFFSET_HUOBIS2VT d.offset = none → on_order d tr = none) ∧
    (d ∈ rows → STATUS_HUOBIS2VT d.status = none → on_query_order rows = none) := by
  refine ⟨?_, ⟨rfl, rfl⟩, ?_, ?_, ?_, ?_, ?_, ?_⟩
  · unfold STATUS_HUOBIS2VT
    split_ifs <;> simp_all
  · unfold STATUS_HUOBIS2VT
    split_ifs <;> simp
  · intro h
    simp [on_order, h, Option.bind_eq_none, Bind.bind]
  · intro h
    simp [on_order, h, Bind.bind]
  · intro h
    simp [on_order, h, Option.bind_eq_none, Bind.bind]
  · intro h
    simp [on_order, h, Option.bind_eq_none, Bind.bind]
  · intro hmem h
    have hnone : (on_order d []).map Prod.fst = none := by
      simp [on_order, h, Option.bind_eq_none, Bind.bind]
    clear tr n
    induction rows with
    | nil => cases hmem
    | cons r rs ih =>
      rcases List.mem_cons.mp hmem with rfl | hmem'
      · simp [on_query_order, hnone]
      · unfold on_query_order
        rcases hmap : (on_order r []).map Prod.fst with _ | o
        · rfl
        · simp [ih hmem']

/-- C10 witness: an order payload with the unmapped wire status 99
makes both the push handler and the open-order handler raise. -/
theorem c10_status_map_domain_witness :
    on_order ⟨0, none, 1, "BTC-USD", WireKey.s "limit", "buy", "open",
      1, 1, 0, 99⟩ [] = none ∧
    on_query_order [⟨0, none, 1, "BTC-USD", WireKey.s "limit", "buy", "open",
      1, 1, 0, 99⟩] = none :=
  ⟨(c10_status_map_domain 99 ⟨0, none, 1, "BTC-USD", WireKey.s "limit", "buy",
      "open", 1, 1, 0, 99⟩ [] []).2.2.2.1 (by decide),
   (c10_status_map_domain 99 ⟨0, none, 1, "BTC-USD", WireKey.s "limit", "buy",
      "open", 1, 1, 0, 99⟩ []
      [⟨0, none, 1, "BTC-USD", WireKey.s "limit", "buy", "open", 1, 1, 0, 99⟩]
      ).2.2.2.2.2.2.2 (List.mem_singleton_self _) (by decide)⟩

/-- Overwriting the indexed order with its rejected copy changes no
rejected-image of any slot. -/
lemma set_reject_map (os : List BOrder) (ix : Nat) (o : BOrder)
    (ho : os[ix]? = some o) (j : Nat) :
    ((os.set ix (rejectOrd o))[j]?).map rejectOrd = (os[j]?).map rejectOrd := by
  by_cases hj : ix = j
  · subst hj
    have hlt : ix < os.length := by
      rcases List.getElem?_eq_some.mp ho with ⟨h, _⟩
      exact h
    rw [List.getElem?_set_self hlt, ho]
    rfl
  · rw [List.getElem?_set_ne hj]

/-- Characterization of the error loop of `on_send_orders` when every
reported index is in range. -/
lemma applyErrors_spec (errs : List ErrEntry) :
    ∀ os : List BOrder, (∀ e ∈ errs, e.index < os.length) →
      ∃ res, applyErrors os errs = some res ∧
        res.1.length = os.length ∧
        (∀ j, j ∉ errs.map ErrEntry.index → res.1[j]? = os[j]?) ∧
        (∀ j, j ∈ errs.map ErrEntry.index →
          res.1[j]? = (os[j]?).map rejectOrd) ∧
        res.2.length = errs.length ∧
        (∀ (k : Nat) (e2 : ErrEntry), errs[k]? = some e2 →
          res.2[k]? = (os[e2.index]?).map rejectOrd) := by
  induction errs with
  | nil =>
    intro os _
    exact ⟨(os, []), rfl, rfl, fun _ _ => rfl, fun j hj => absurd hj (by simp),
      rfl, fun k e2 hk => by simp at hk⟩
  | cons e es ih =>
    intro os hv
    have hidx : e.index < os.length := hv e (List.mem_cons_self _ _)
    have ho : os[e.index]? = some os[e.index] := List.getElem?_eq_getElem hidx
    set o := os[e.index] with hoo
    set os2 := os.set e.index (rejectOrd o) with hos2
    have hlen2 : os2.length = os.length := by simp [hos2]
    have hv2 : ∀ e2 ∈ es, e2.index < os2.length := fun e2 h2 =>
      hlen2 ▸ hv e2 (List.mem_cons_of_mem _ h2)
    obtain ⟨res, hres, hrl, hunch, hrej, hel, hem⟩ := ih os2 hv2
    have hmap2 : ∀ j, (os2[j]?).map rejectOrd = (os[j]?).map rejectOrd :=
      set_reject_map os e.index o ho
    refine ⟨(res.1, rejectOrd o :: res.2), ?_, ?_, ?_, ?_, ?_, ?_⟩
    · simp only [applyErrors, ho]
      rw [← hos2, hres]
    · rw [hrl, hlen2]
    · intro j hj
      have hj1 : j ≠ e.index := fun h => hj (by
        rw [List.map_cons]
        exact h ▸ List.mem_cons_self _ _)
      have hj2 : j ∉ es.map ErrEntry.index := fun h => hj (by
        rw [List.map_cons]
        exact List.mem_cons_of_mem _ h)
      rw [hunch j hj2, hos2, List.getElem?_set_ne (fun h => hj1 h.symm)]
    · intro j hj
      by_cases hj2 : j ∈ es.map ErrEntry.index
      · rw [hrej j hj2, hmap2 j]
      · have hj1 : j = e.index := by
          rw [List.map_cons] at hj
          rcases List.mem_cons.mp hj with h | h
          · exact h
          · exact absurd h hj2
        subst hj1
        rw [hunch _ hj2, hos2, List.getElem?_set_self hidx, ho]
        rfl
    · simp [hel]
    · intro k e2 hk
      match k with
      | 0 =>
        simp only [List.getElem?_cons_zero, Option.some_inj] at hk
        subst hk
        simp only [List.getElem?_cons_zero, Option.some_inj]
        rw [ho]
        rfl
      | Nat.succ k =>
        simp only [List.getElem?_cons_succ] at hk ⊢
        rw [hem k e2 hk, hmap2 e2.index]

/-- C7: with a per-index error list whose indices are all in range,
exactly the orders at the listed indices are transitioned to rejected
and re-emitted (one emission per error entry, in list order), while
every order at an index not named in the list is left untouched. -/
theorem c7_batch_partial_failure (os : List BOrder) (errs : List ErrEntry)
    (hvalid : ∀ e ∈ errs, e.index < os.length) :
    ∃ res, on_send_orders os (some errs) = some res ∧
      res.1.length = os.length ∧
      (∀ j, j ∉ errs.map ErrEntry.index → res.1[j]? = os[j]?) ∧
      (∀ j, j ∈ errs.map ErrEntry.index →
        res.1[j]? = (os[j]?).map rejectOrd) ∧
      res.2.length = errs.length ∧
      (∀ (k : Nat) (e2 : ErrEntry), errs[k]? = some e2 →
        res.2[k]? = (os[e2.index]?).map rejectOrd) := by
  obtain ⟨res, hres, hs⟩ := applyErrors_spec errs os hvalid
  have heq : on_send_orders os (some errs) = applyErrors os errs := by
    cases errs <;> rfl
  exact ⟨res, heq ▸ hres, hs⟩

/-- C7 witness: a batch of three submitted orders with an error only
at index 1 keeps orders 0 and 2 submitted and rejects only order 1,
with exactly one re-emission. -/
theorem c7_batch_partial_failure_witness :
    ∃ res, on_send_orders
        [⟨10, St.submitting⟩, ⟨11, St.submitting⟩, ⟨12, St.submitting⟩]
        (some [⟨1, 1034, "bad"⟩]) = some res ∧
      res.1[0]? = some ⟨10, St.submitting⟩ ∧
      res.1[1]? = some ⟨11, St.rejected⟩ ∧
      res.1[2]? = some ⟨12, St.submitting⟩ ∧
      res.2.length = 1 := by
  obtain ⟨res, h1, _, hunch, hrej, hel, _⟩ :=
    c7_batch_partial_failure
      [⟨10, St.submitting⟩, ⟨11, St.submitting⟩, ⟨12, St.submitting⟩]
      [⟨1, 1034, "bad"⟩] (by decide)
  refine ⟨res, h1, ?_, ?_, ?_, hel⟩
  · rw [hunch 0 (by decide)]
    rfl
  · rw [hrej 1 (by decide)]
    rfl
  · rw [hunch 2 (by decide)]
    rfl

/-- Lookup after a dict write at the same key. -/
lemma alistGet_set_self {b : Type} (l : List (String × b)) (k : String) (v : b) :
    alistGet (alistSet l k v) k = some v := by
  induction l with
  | nil => simp [alistGet, alistSet]
  | cons p ps ih => by_cases h : p.1 = k <;> simp [alistGet, alistSet, h, ih]

/-- Lookup after a dict write at a different key. -/
lemma alistGet_set_ne {b : Type} (l : List (String × b)) (k k2 : String) (v : b)
    (h : k2 ≠ k) :
    alistGet (alistSet l k v) k2 = alistGet l k2 := by
  induction l with
  | nil => simp [alistGet, alistSet, Ne.symm h]
  | cons p ps ih =>
    by_cases hp : p.1 = k
    · subst hp
      simp [alistGet, alistSet, Ne.symm h]
    · simp [alistGet, alistSet, hp, ih]

/-- Lookup commutes with mapping over the stored values. -/
lemma alistGet_mapVal {b : Type} (f : b → b) (l : List (String × b)) (k : String) :
    alistGet (l.map fun kv => (kv.1, f kv.2)) k = (alistGet l k).map f := by
  induction l with
  | nil => simp [alistGet]
  | cons p ps ih => by_cases h : p.1 = k <;> simp [alistGet, h, ih]

/-- A successful lookup yields a stored value. -/
lemma alistGet_mem {b : Type} (l : List (String × b)) (k : String) (v : b)
    (h : alistGet l k = some v) : v ∈ l.map Prod.snd := by
  induction l with
  | nil => simp [alistGet] at h
  | cons p ps ih =>
    by_cases hp : p.1 = k
    · simp [alistGet, hp] at h
      simp [h]
    · simp only [alistGet, if_neg hp] at h
      simp [ih h]

/-- Characterization of the per-row loop of `on_query_position` when
every reported direction code is translatable. -/
lemma applyPosEntries_spec (entries : List PosEntry) :
    ∀ cache : List (String × PosData),
      (∀ d ∈ entries, DIRECTION_HUOBIS2VT d.direction ≠ none) →
      ∃ c, applyPosEntries cache entries = some c ∧
        (∀ k, k ∉ entries.map entryKey → alistGet c k = alistGet cache k) ∧
        ((entries.map entryKey).Nodup →
          ∀ d ∈ entries, ∃ p, alistGet c (entryKey d) = some p ∧
            p.volume = d.volume ∧ p.frozen = d.frozen ∧
            p.price = d.cost_hold ∧ p.pnl = d.profit) := by
  induction entries with
  | nil =>
    intro cache _
    exact ⟨cache, rfl, fun _ _ => rfl, fun _ d hd => absurd hd (by simp)⟩
  | cons d ds ih =>
    intro cache hdir
    obtain ⟨p, hp⟩ : ∃ p : PosData, posBase cache d = some p := by
      unfold posBase
      cases hcache : alistGet cache (entryKey d) with
      | some q => exact ⟨q, rfl⟩
      | none =>
        cases hdirm : DIRECTION_HUOBIS2VT d.direction with
        | none => exact absurd hdirm (hdir d (List.mem_cons_self _ _))
        | some dir => exact ⟨_, rfl⟩
    set p2 : PosData :=
      { p with volume := d.volume, frozen := d.frozen,
               price := d.cost_hold, pnl := d.profit } with hp2
    obtain ⟨c, hc, hunch, hrep⟩ := ih (alistSet cache (entryKey d) p2)
      (fun d2 h2 => hdir d2 (List.mem_cons_of_mem _ h2))
    refine ⟨c, ?_, ?_, ?_⟩
    · simp only [applyPosEntries, hp]
      rw [← hp2, hc]
    · intro k hk
      have hk1 : k ≠ entryKey d := fun h => hk (by
        rw [List.map_cons]
        exact h ▸ List.mem_cons_self _ _)
      have hk2 : k ∉ ds.map entryKey := fun h => hk (by
        rw [List.map_cons]
        exact List.mem_cons_of_mem _ h)
      rw [hunch k hk2, alistGet_set_ne _ _ _ _ hk1]
    · intro hnodup d2 hd2
      rw [List.map_cons, List.nodup_cons] at hnodup
      rcases List.mem_cons.mp hd2 with rfl | hd2m
      · refine ⟨p2, ?_, rfl, rfl, rfl, rfl⟩
        rw [hunch _ hnodup.1, alistGet_set_self]
      · exact hrep hnodup.2 d2 hd2m

/-- C8: a non-error position refresh zeroes every cached entry absent
from the response (volume, frozen, cost and PnL all 0), overwrites the
reported entries with the reported values, and emits every cached
position, including the now-flat absent ones. -/
theorem c8_position_reconciliation (cache : List (String × PosData))
    (entries : List PosEntry)
    (hdir : ∀ d ∈ entries, DIRECTION_HUOBIS2VT d.direction ≠ none) :
    ∃ c em, on_query_position false cache entries = some (c, em) ∧
      em = c.map Prod.snd ∧
      (∀ k, k ∉ entries.map entryKey →
        alistGet c k = (alistGet cache k).map zeroPos) ∧
      (∀ k p, alistGet cache k = some p → k ∉ entries.map entryKey →
        zeroPos p ∈ em) ∧
      ((entries.map entryKey).Nodup →
        ∀ d ∈ entries, ∃ p, alistGet c (entryKey d) = some p ∧
          p.volume = d.volume ∧ p.frozen = d.frozen ∧
          p.price = d.cost_hold ∧ p.pnl = d.profit) := by
  obtain ⟨c, hc, hunch, hrep⟩ :=
    applyPosEntries_spec entries (cache.map fun kv => (kv.1, zeroPos kv.2)) hdir
  have hget : ∀ k, k ∉ entries.map entryKey →
      alistGet c k = (alistGet cache k).map zeroPos := by
    intro k hk
    rw [hunch k hk, alistGet_mapVal]
  refine ⟨c, c.map Prod.snd, ?_, rfl, hget, ?_, hrep⟩
  · simp [on_query_position, hc]
  · intro k p hp hk
    apply alistGet_mem c k
    rw [hget k hk, hp]
    rfl

/-- C8 witness: a cached long position in one instrument absent from
the fresh response is zeroed and still emitted, while the reported
instrument carries the reported volume. -/
theorem c8_position_reconciliation_witness :
    ∃ c em, on_query_position false
        [("ETH-USD_buy", ⟨"ETH-USD", Dir.long, 5, 1, 100, 2⟩)]
        [⟨"BTC-USD", "buy", 7, 0, 50, 1⟩] = some (c, em) ∧
      zeroPos ⟨"ETH-USD", Dir.long, 5, 1, 100, 2⟩ ∈ em ∧
      ∃ p, alistGet c "BTC-USD_buy" = some p ∧ p.volume = 7 := by
  obtain ⟨c, em, h1, _, _, hflat, hrep⟩ :=
    c8_position_reconciliation
      [("ETH-USD_buy", ⟨"ETH-USD", Dir.long, 5, 1, 100, 2⟩)]
      [⟨"BTC-USD", "buy", 7, 0, 50, 1⟩] (by decide)
  refine ⟨c, em, h1, ?_, ?_⟩
  · exact hflat "ETH-USD_buy" _ (by simp [alistGet]) (by decide)
  · obtain ⟨p, hp, hv, _, _, _⟩ := hrep (by decide)
      ⟨"BTC-USD", "buy", 7, 0, 50, 1⟩ (List.mem_singleton_self _)
    exact ⟨p, hp, hv⟩



/-- The last-binding lookup only sees the pairs holding its key. -/
lemma lookupLast_filter (l : List (String × String)) (k : String) :
    lookupLast (l.filter fun p => p.1 == k) k = lookupLast l k := by
  induction l with
  | nil => rfl
  | cons p ps ih =>
    by_cases hp : p.1 = k
    · rw [List.filter_cons_of_pos (by simp [hp])]
      simp only [lookupLast, ih]
    · rw [List.filter_cons_of_neg (by simp [hp])]
      have h3 : lookupLast (p :: ps) k = lookupLast ps k := by
        simp only [lookupLast]
        cases h2 : lookupLast ps k
        · simp [hp]
        · rfl
      rw [ih, h3]

/-- Lookup in a dict built by repeated assignment is the last binding
of the key, falling back to the accumulator. -/
lemma alistGet_foldl_set (l : List (String × String)) :
    ∀ (acc : List (String × String)) (k : String),
      alistGet (l.foldl (fun acc p => alistSet acc p.1 p.2) acc) k =
        match lookupLast l k with
        | some v => some v
        | none => alistGet acc k := by
  induction l with
  | nil => intro acc k; rfl
  | cons p ps ih =>
    intro acc k
    rw [List.foldl_cons, ih]
    by_cases hp : p.1 = k
    · cases h2 : lookupLast ps k with
      | some v => simp only [lookupLast, h2]
      | none =>
        simp only [lookupLast, h2, if_pos hp]
        subst hp
        exact alistGet_set_self acc p.1 p.2
    · cases h2 : lookupLast ps k with
      | some v => simp only [lookupLast, h2]
      | none =>
        simp only [lookupLast, h2, if_neg hp]
        exact alistGet_set_ne acc p.1 k p.2 (fun h => hp h.symm)

/-- `dict(pairs)` lookup is the last binding of the key. -/
lemma alistGet_pyDict (l : List (String × String)) (k : String) :
    alistGet (pyDict l) k = lookupLast l k := by
  unfold pyDict
  rw [alistGet_foldl_set]
  cases lookupLast l k <;> rfl

/-- Sorting commutes with filtering. -/
lemma insertionSort_filter (l : List (String × String))
    (p : (String × String) → Bool) :
    (List.insertionSort pairLe l).filter p =
      List.insertionSort pairLe (l.filter p) := by
  exact List.eq_of_perm_of_sorted
    (((List.perm_insertionSort pairLe l).filter p).trans
      (List.perm_insertionSort pairLe (l.filter p)).symm)
    (List.Pairwise.sublist (List.filter_sublist _)
      (List.sorted_insertionSort pairLe l))
    (List.sorted_insertionSort pairLe _)

/-- For a key other than Timestamp, filtering the mandatory fields by
that key does not depend on the timestamp value. -/
lemma filter_base_ne_timestamp (api ts1 ts2 k : String) (hk : k ≠ "Timestamp") :
    (baseParams api ts1).filter (fun p => p.1 == k) =
      (baseParams api ts2).filter (fun p => p.1 == k) := by
  have hT : (("Timestamp" : String) == k) = false :=
    beq_eq_false_iff_ne.mpr (Ne.symm hk)
  simp [baseParams, List.filter, hT]

/-- The mandatory fields are sorted as written. -/
lemma sorted_base (api ts : String) : List.Sorted pairLe (baseParams api ts) := by
  unfold baseParams
  show List.Pairwise pairLe _
  refine .cons ?_ (.cons ?_ (.cons ?_ (.cons ?_ .nil)))
  · intro x hx
    fin_cases hx
    · exact Or.inl (by decide : strLt "AccessKeyId" "SignatureMethod" = true)
    · exact Or.inl (by decide : strLt "AccessKeyId" "SignatureVersion" = true)
    · exact Or.inl (by decide : strLt "AccessKeyId" "Timestamp" = true)
  · intro x hx
    fin_cases hx
    · exact Or.inl (by decide : strLt "SignatureMethod" "SignatureVersion" = true)
    · exact Or.inl (by decide : strLt "SignatureMethod" "Timestamp" = true)
  · intro x hx
    fin_cases hx
    exact Or.inl (by decide : strLt "SignatureVersion" "Timestamp" = true)
  · intro x hx
    exact absurd hx (by simp)

/-- C4: the signing function is deterministic — equal inputs
(timestamp included) give byte-identical parameter mappings — and when
only the timestamp differs, the two mappings agree on every entry
other than Timestamp and the Signature derived from it, for any
HMAC-base64 primitive. -/
theorem c4_signature_determinism (hmacB64 : String → String → String)
    (api method host path secret ts1 ts2 : String)
    (gp : List (String × String)) (k : String) :
    (ts1 = ts2 →
      create_signature hmacB64 api method host path secret ts1 gp =
        create_signature hmacB64 api method host path secret ts2 gp) ∧
    (k ≠ "Timestamp" → k ≠ "Signature" →
      alistGet (create_signature hmacB64 api method host path secret ts1 gp) k =
        alistGet (create_signature hmacB64 api method host path secret ts2 gp) k) := by
  constructor
  · rintro rfl
    rfl
  · intro hkT hkS
    simp only [create_signature]
    rw [alistGet_set_ne _ _ _ _ hkS, alistGet_set_ne _ _ _ _ hkS,
        alistGet_pyDict, alistGet_pyDict,
        ← lookupLast_filter (signParams api ts1 gp) k,
        ← lookupLast_filter (signParams api ts2 gp) k]
    congr 1
    unfold signParams
    by_cases hgp : gp.isEmpty
    · rw [if_pos hgp, if_pos hgp]
      exact filter_base_ne_timestamp api ts1 ts2 k hkT
    · rw [if_neg hgp, if_neg hgp, insertionSort_filter, insertionSort_filter,
          List.filter_append, List.filter_append,
          filter_base_ne_timestamp api ts1 ts2 k hkT]

/-- C4 witness: with a concrete primitive, identical calls agree
byte-for-byte, and calls differing only in the timestamp agree on the
supplied parameter a. -/
theorem c4_signature_determinism_witness :
    create_signature (fun s p => s ++ p) "k" "GET" "api.hbdm.com"
        "/swap-api/v1/swap_order" "sec" "2024-01-01T00:00:00" [("a", "1")] =
      create_signature (fun s p => s ++ p) "k" "GET" "api.hbdm.com"
        "/swap-api/v1/swap_order" "sec" "2024-01-01T00:00:00" [("a", "1")] ∧
    alistGet (create_signature (fun s p => s ++ p) "k" "GET" "api.hbdm.com"
        "/swap-api/v1/swap_order" "sec" "2024-01-01T00:00:00" [("a", "1")]) "a" =
      alistGet (create_signature (fun s p => s ++ p) "k" "GET" "api.hbdm.com"
        "/swap-api/v1/swap_order" "sec" "2024-02-02T11:22:33" [("a", "1")]) "a" :=
  ⟨(c4_signature_determinism (fun s p => s ++ p) "k" "GET" "api.hbdm.com"
      "/swap-api/v1/swap_order" "sec" "2024-01-01T00:00:00" "2024-01-01T00:00:00"
      [("a", "1")] "a").1 rfl,
   (c4_signature_determinism (fun s p => s ++ p) "k" "GET" "api.hbdm.com"
      "/swap-api/v1/swap_order" "sec" "2024-01-01T00:00:00" "2024-02-02T11:22:33"
      [("a", "1")] "a").2 (by decide) (by decide)⟩

/-- C5 counterexample: supplying the additional parameter Timestamp
(value zzz) yields a combined list with the key Timestamp twice, so
the encoded payload is not in strict lexicographic key order. -/
theorem c5_param_ordering_counterexample :
    (signParams "k" "2024-01-01T00:00:00" [("Timestamp", "zzz")]).map Prod.fst =
      ["AccessKeyId", "SignatureMethod", "SignatureVersion",
       "Timestamp", "Timestamp"] ∧
    urlencode (signParams "k" "2024-01-01T00:00:00" [("Timestamp", "zzz")]) =
      "AccessKeyId=k&SignatureMethod=HmacSHA256&SignatureVersion=2&Timestamp=2024-01-01T00%3A00%3A00&Timestamp=zzz" ∧
    ¬ List.Pairwise (fun a b : String => strLt a b = true)
      ((signParams "k" "2024-01-01T00:00:00" [("Timestamp", "zzz")]).map
        Prod.fst) :=
  ⟨by decide, by decide, by decide⟩

/-- C5 amended: the serialized list is always the combined parameter
set sorted under the tuple order (nondecreasing in the key); when the
supplied names avoid the four mandatory names and each other the order
is strictly increasing in the key, in particular for the parameters
b=2, a=1. -/
theorem c5_param_ordering (api ts : String) (gp : List (String × String)) :
    (signParams api ts gp).Perm (baseParams api ts ++ gp) ∧
    List.Sorted pairLe (signParams api ts gp) ∧
    (((baseParams api ts ++ gp).map Prod.fst).Nodup →
      List.Pairwise (fun a b : String × String => strLt a.1 b.1 = true)
        (signParams api ts gp)) := by
  have hperm : (signParams api ts gp).Perm (baseParams api ts ++ gp) := by
    unfold signParams
    by_cases h : gp.isEmpty
    · rw [if_pos h, List.isEmpty_iff.mp h, List.append_nil]
    · rw [if_neg h]
      exact List.perm_insertionSort pairLe _
  have hsorted : List.Sorted pairLe (signParams api ts gp) := by
    unfold signParams
    by_cases h : gp.isEmpty
    · rw [if_pos h]
      exact sorted_base api ts
    · rw [if_neg h]
      exact List.sorted_insertionSort pairLe _
  refine ⟨hperm, hsorted, ?_⟩
  intro hnd
  have hnd2 : ((signParams api ts gp).map Prod.fst).Nodup :=
    ((hperm.map Prod.fst).nodup_iff).mpr hnd
  have hpk : List.Pairwise (fun a b : String × String => a.1 ≠ b.1)
      (signParams api ts gp) := List.pairwise_map.mp hnd2
  refine (List.Pairwise.and hsorted hpk).imp ?_
  rintro a b ⟨hle, hne⟩
  rcases hle with h | ⟨h, _⟩
  · exact h
  · exact absurd h hne

/-- C5 amended witness: with supplied parameters b=2 and a=1 all six
keys are strictly ordered. -/
theorem c5_param_ordering_witness :
    List.Pairwise (fun a b : String × String => strLt a.1 b.1 = true)
      (signParams "k" "2024-01-01T00:00:00" [("b", "2"), ("a", "1")]) ∧
    (signParams "k" "2024-01-01T00:00:00" [("b", "2"), ("a", "1")]).map
        Prod.fst =
      ["AccessKeyId", "SignatureMethod", "SignatureVersion", "Timestamp",
       "a", "b"] :=
  ⟨(c5_param_ordering "k" "2024-01-01T00:00:00" [("b", "2"), ("a", "1")]).2.2
      (by decide),
   by decide⟩


/-- The digit function does not depend on the fuel, once sufficient. -/
lemma decDigitsAux_fuel : ∀ fuel1 n fuel2, n < fuel1 → n < fuel2 →
    decDigitsAux fuel1 n = decDigitsAux fuel2 n := by
  intro fuel1
  induction fuel1 with
  | zero => intro n fuel2 h1; omega
  | succ f1 ih =>
    intro n fuel2 h1 h2
    cases fuel2 with
    | zero => omega
    | succ g =>
      simp only [decDigitsAux]
      by_cases h10 : n < 10
      · simp [h10]
      · simp only [if_neg h10]
        rw [ih (n / 10) g (by omega) (by omega)]

/-- Unfolding step of the digit function for two-digit numbers. -/
lemma decDigits_step (n : Nat) (h : 10 ≤ n) :
    decDigits n = decDigits (n / 10) ++ [n % 10] := by
  unfold decDigits
  rw [show decDigitsAux (n + 1) n
      = decDigitsAux n (n / 10) ++ [n % 10] from by
    simp [decDigitsAux, Nat.not_lt.mpr h]]
  rw [decDigitsAux_fuel n (n / 10) (n / 10 + 1) (by omega) (by omega)]

/-- One-digit numbers. -/
lemma decDigits_lt (n : Nat) (h : n < 10) : decDigits n = [n] := by
  simp [decDigits, decDigitsAux, h]

/-- The digit function agrees with the Mathlib digit expansion. -/
lemma decDigits_eq_digits : ∀ n, n ≠ 0 → decDigits n = (Nat.digits 10 n).reverse := by
  intro n
  induction n using Nat.strong_induction_on with
  | _ n ih =>
    intro h
    by_cases h10 : n < 10
    · rw [decDigits_lt n h10, Nat.digits_of_lt 10 n h h10]
      rfl
    · push_neg at h10
      rw [decDigits_step n h10,
        Nat.digits_def' (by norm_num : (1 : ℕ) < 10) (by omega : 0 < n),
        List.reverse_cons]
      congr 1
      exact ih (n / 10) (by omega) (by omega)

/-- Round trip: the value of the digits of n is n. -/
lemma digitsVal_decDigits (n : Nat) : digitsVal (decDigits n) = n := by
  by_cases h : n = 0
  · subst h
    decide
  · rw [decDigits_eq_digits n h]
    unfold digitsVal
    rw [List.reverse_reverse, Nat.ofDigits_digits]

/-- The value of an epoch-counter concatenation. -/
lemma digitsVal_concat (e c : Nat) :
    digitsVal (decDigits e ++ decDigits c)
      = c + 10 ^ (decDigits c).length * e := by
  unfold digitsVal
  rw [List.reverse_append, Nat.ofDigits_append, List.length_reverse]
  rw [show Nat.ofDigits 10 (decDigits c).reverse = digitsVal (decDigits c) from rfl,
      show Nat.ofDigits 10 (decDigits e).reverse = digitsVal (decDigits e) from rfl,
      digitsVal_decDigits, digitsVal_decDigits]

/-- A nonzero number is bounded by powers of ten tied to its digit
count. -/
lemma decDigits_len_bounds (c : Nat) (h : c ≠ 0) :
    c < 10 ^ (decDigits c).length ∧ 10 ^ ((decDigits c).length - 1) ≤ c := by
  rw [decDigits_eq_digits c h, List.length_reverse]
  constructor
  · exact Nat.lt_base_pow_length_digits (by norm_num)
  · have hle := Nat.base_pow_length_digits_le 10 c (by norm_num) h
    have hnil : Nat.digits 10 c ≠ [] := Nat.digits_ne_nil_iff_ne_zero.mpr h
    have hlen : 1 ≤ (Nat.digits 10 c).length := by
      cases hd : Nat.digits 10 c
      · exact absurd hd hnil
      · simp [hd]
    have hpow : 10 ^ (Nat.digits 10 c).length
        = 10 * 10 ^ ((Nat.digits 10 c).length - 1) := by
      rw [← pow_succ']
      congr 1
      omega
    rw [hpow] at hle
    omega

/-- Digit count is monotone. -/
lemma decDigits_len_mono (c1 c2 : Nat) (h1 : c1 ≠ 0) (hle : c1 ≤ c2) :
    (decDigits c1).length ≤ (decDigits c2).length := by
  have h2 : c2 ≠ 0 := by omega
  rw [decDigits_eq_digits c1 h1, decDigits_eq_digits c2 h2,
      List.length_reverse, List.length_reverse]
  exact Nat.le_digits_len_le 10 c1 c2 hle

/-- With a fixed epoch, the numeric value of the concatenated id is
strictly monotone in the counter. -/
lemma digitsVal_mono (e c1 c2 : Nat) (h1 : 0 < c1) (h12 : c1 < c2) :
    digitsVal (decDigits e ++ decDigits c1)
      < digitsVal (decDigits e ++ decDigits c2) := by
  rw [digitsVal_concat, digitsVal_concat]
  have hL : (decDigits c1).length ≤ (decDigits c2).length :=
    decDigits_len_mono c1 c2 (by omega) (by omega)
  obtain ⟨hup1, _⟩ := decDigits_len_bounds c1 (by omega)
  obtain ⟨_, hlo2⟩ := decDigits_len_bounds c2 (by omega)
  rcases Nat.eq_or_lt_of_le hL with he | hlt
  · rw [he]
    exact Nat.add_lt_add_right h12 _
  · have hstep : 10 ^ (decDigits c1).length ≤ 10 ^ ((decDigits c2).length - 1) :=
      Nat.pow_le_pow_right (by norm_num) (by omega)
    have h1e : 10 ^ (decDigits c1).length * e
        ≤ 10 ^ ((decDigits c2).length - 1) * e :=
      Nat.mul_le_mul_right e hstep
    have hstep2 : 10 ^ ((decDigits c2).length - 1) * e
        ≤ 10 ^ (decDigits c2).length * e :=
      Nat.mul_le_mul_right e (Nat.pow_le_pow_right (by norm_num) (by omega))
    calc c1 + 10 ^ (decDigits c1).length * e
        < 10 ^ (decDigits c1).length + 10 ^ (decDigits c1).length * e := by omega
      _ ≤ 10 ^ ((decDigits c2).length - 1)
          + 10 ^ ((decDigits c2).length - 1) * e := by omega
      _ ≤ c2 + 10 ^ (decDigits c2).length * e := by omega

/-- The i-th generated id. -/
lemma genIds_get (e : Nat) : ∀ (N c i : Nat), i < N →
    (genIds ⟨e, c⟩ N)[i]? = some (decDigits e ++ decDigits (c + i + 1)) := by
  intro N
  induction N with
  | zero => intro c i h; omega
  | succ N ihN =>
    intro c i h
    match i with
    | 0 => simp [genIds, new_local_orderid]
    | Nat.succ i =>
      have hstep := ihN (c + 1) i (by omega)
      have harith : c + 1 + i + 1 = c + (i + 1) + 1 := by omega
      simp only [genIds, new_local_orderid, List.getElem?_cons_succ]
      rw [hstep, harith]

/-- The generator returns one id per call. -/
lemma genIds_length (e c : Nat) : ∀ N, (genIds ⟨e, c⟩ N).length = N := by
  intro N
  induction N generalizing c with
  | zero => rfl
  | succ N ih => simp [genIds, new_local_orderid, ih]

/-- C6: from a fresh connection state (counter 10000), N generator
calls return N ids; the first is the epoch digits followed by 10001;
every id starts with the epoch digits; and the ids are numerically
strictly increasing, hence pairwise distinct. -/
theorem c6_orderid_monotonic (e N i j : Nat) :
    (genIds (initGen e) N).length = N ∧
    (0 < N →
      (genIds (initGen e) N)[0]? = some (decDigits e ++ decDigits 10001)) ∧
    (∀ id2 ∈ genIds (initGen e) N, ∃ t, id2 = decDigits e ++ t) ∧
    (∀ a b, i < j → j < N →
      (genIds (initGen e) N)[i]? = some a →
      (genIds (initGen e) N)[j]? = some b →
      digitsVal a < digitsVal b ∧ a ≠ b) := by
  simp only [initGen]
  refine ⟨genIds_length e 10000 N, ?_, ?_, ?_⟩
  · intro hN
    rw [genIds_get e N 10000 0 hN]
  · intro id2 hid
    obtain ⟨k, hk⟩ := List.mem_iff_getElem?.mp hid
    have hkN : k < N := by
      obtain ⟨hlt, _⟩ := List.getElem?_eq_some.mp hk
      rwa [genIds_length] at hlt
    rw [genIds_get e N 10000 k hkN] at hk
    injection hk with hk2
    exact ⟨decDigits (10000 + k + 1), hk2.symm⟩
  · intro a b hij hjN ha hb
    rw [genIds_get e N 10000 i (by omega)] at ha
    rw [genIds_get e N 10000 j hjN] at hb
    injection ha with ha2
    injection hb with hb2
    have hlt := digitsVal_mono e (10000 + i + 1) (10000 + j + 1)
      (by omega) (by omega)
    rw [ha2, hb2] at hlt
    refine ⟨hlt, fun hEq => ?_⟩
    rw [hEq] at hlt
    exact lt_irrefl _ hlt

/-- C6 witness: three calls with epoch 999 give three distinct
increasing ids starting with the epoch digits, the first one ending in
10001. -/
theorem c6_orderid_monotonic_witness :
    (genIds (initGen 999) 3).length = 3 ∧
    (genIds (initGen 999) 3)[0]? = some (decDigits 999 ++ decDigits 10001) ∧
    (∃ t, decDigits 999 ++ decDigits 10001 = decDigits 999 ++ t) ∧
    (digitsVal (decDigits 999 ++ decDigits 10001)
        < digitsVal (decDigits 999 ++ decDigits 10003) ∧
      decDigits 999 ++ decDigits 10001 ≠ decDigits 999 ++ decDigits 10003) :=
  ⟨(c6_orderid_monotonic 999 3 0 2).1,
   (c6_orderid_monotonic 999 3 0 2).2.1 (by decide),
   (c6_orderid_monotonic 999 3 0 2).2.2.1 _ (by decide),
   (c6_orderid_monotonic 999 3 0 2).2.2.2 _ _ (by decide) (by decide)
     (by decide) (by decide)⟩


/-- Splitting the first page off an indexed flatten. -/
lemma flatten_shift (f : Nat → List KBar) (i n : Nat) :
    ((List.range (n + 1)).map (fun j => f (i + j))).flatten =
      f i ++ ((List.range n).map (fun j => f (i + 1 + j))).flatten := by
  rw [List.range_succ_eq_map]
  simp only [List.map_cons, Nat.add_zero, List.flatten_cons, List.map_map]
  congr 2
  apply List.map_congr_left
  intro j _
  simp only [Function.comp_apply]
  rw [Nat.add_succ, Nat.succ_add]

/-- Soundness of the pagination loop: every produced window spans
interval times 1999; the first window starts at the given start; every
later window starts at the last timestamp of the previous page; the
loop stops exactly at the first non-full page; and the result is the
concatenation of the consumed rows of the requested pages. -/
lemma qh_sound (pages : Nat → KResp) (delta : Int) : ∀ (fuel i : Nat)
    (start : Int) res,
    query_history pages delta fuel i start = some res →
      (∀ w ∈ res.2, w.2 = w.1 + delta * 1999) ∧
      res.2[0]? = some (start, start + delta * 1999) ∧
      (∀ j w, res.2[j + 1]? = some w → w.1 = pageLastTs (pages (i + j))) ∧
      pageFullB (pages (i + (res.2.length - 1))) = false ∧
      (∀ j, j + 1 < res.2.length → pageFullB (pages (i + j)) = true) ∧
      res.1 = ((List.range res.2.length).map
        (fun j => consumedBars (pages (i + j)))).flatten := by
  intro fuel
  induction fuel with
  | zero =>
    intro i start res h
    simp [query_history] at h
  | succ fuel ih =>
    intro i start res h
    simp only [query_history] at h
    split at h
    case isTrue hst =>
      simp only [Option.some.injEq] at h
      subst h
      refine ⟨?_, rfl, ?_, ?_, ?_, ?_⟩
      · intro w hw
        rw [List.mem_singleton] at hw
        subst hw
        rfl
      · intro j w hw
        simp at hw
      · have hb : ((pages i).status / 100 == 2) = false :=
          beq_eq_false_iff_ne.mpr hst
        simp [pageFullB, hb]
      · intro j hj
        simp at hj
      · simp [consumedBars, hst]
    case isFalse hst =>
      rw [ne_eq, not_not] at hst
      split at h
      next hdata =>
        simp only [Option.some.injEq] at h
        subst h
        refine ⟨?_, rfl, ?_, ?_, ?_, ?_⟩
        · intro w hw
          rw [List.mem_singleton] at hw
          subst hw
          rfl
        · intro j w hw
          simp at hw
        · simp [pageFullB, hdata]
        · intro j hj
          simp at hj
        · simp [consumedBars, pageBars, hdata]
      next hdata =>
        simp only [Option.some.injEq] at h
        subst h
        refine ⟨?_, rfl, ?_, ?_, ?_, ?_⟩
        · intro w hw
          rw [List.mem_singleton] at hw
          subst hw
          rfl
        · intro j w hw
          simp at hw
        · simp [pageFullB, hdata]
        · intro j hj
          simp at hj
        · simp [consumedBars, pageBars, hdata]
      next b bs hdata =>
        split at h
        case isTrue hlen =>
          simp only [Option.some.injEq] at h
          subst h
          refine ⟨?_, rfl, ?_, ?_, ?_, ?_⟩
          · intro w hw
            rw [List.mem_singleton] at hw
            subst hw
            rfl
          · intro j w hw
            simp at hw
          · simp only [List.length_singleton, Nat.sub_self, Nat.add_zero]
            simp only [List.length_cons] at hlen
            simp [pageFullB, hdata, List.length_cons]
            omega
          · intro j hj
            simp at hj
          · simp only [List.length_singleton]
            rw [show List.range 1 = [0] from by decide]
            simp [consumedBars, pageBars, hst, hdata]
        case isFalse hlen =>
          split at h
          next hrec =>
            exact absurd h (by simp)
          next r2 hrec =>
            simp only [Option.some.injEq] at h
            subst h
            obtain ⟨ihw, ih0, ihadv, ihlast, ihfull, ihbars⟩ :=
              ih (i + 1) ((bs.getLastD b).id) r2 hrec
            have hr2len : 1 ≤ r2.2.length := by
              obtain ⟨hlt, _⟩ := List.getElem?_eq_some.mp ih0
              omega
            refine ⟨?_, by simp, ?_, ?_, ?_, ?_⟩
            · intro w hw
              rcases List.mem_cons.mp hw with rfl | hw2
              · rfl
              · exact ihw w hw2
            · intro j w hw
              rw [List.getElem?_cons_succ] at hw
              match j with
              | 0 =>
                rw [ih0] at hw
                injection hw with hw
                subst hw
                simp [pageLastTs, hdata]
              | Nat.succ j =>
                rw [ihadv j w hw, show i + 1 + j = i + (j + 1) from by omega]
            · rw [List.length_cons,
                show i + (r2.2.length + 1 - 1) = i + 1 + (r2.2.length - 1) from by
                  omega]
              exact ihlast
            · intro j hj
              rw [List.length_cons] at hj
              match j with
              | 0 =>
                have hfull0 : pageFullB (pages i) = true := by
                  simp only [List.length_cons] at hlen
                  simp [pageFullB, hst, hdata, List.length_cons]
                  omega
                simpa using hfull0
              | Nat.succ j =>
                rw [show i + (j + 1) = i + 1 + j from by omega]
                exact ihfull j (by omega)
            · rw [List.length_cons,
                flatten_shift (fun j => consumedBars (pages j)) i r2.2.length,
                ← ihbars]
              have hcons : consumedBars (pages i) = b :: bs := by
                simp [consumedBars, pageBars, hst, hdata]
              rw [hcons]


/-- Completeness of the pagination loop: if the first k pages keep the
loop going and page k stops it, then (with enough fuel) the loop
returns and makes exactly k+1 requests. -/
lemma qh_complete (pages : Nat → KResp) (delta : Int) : ∀ (fuel i : Nat)
    (start : Int) (k : Nat), k < fuel →
    (∀ j, j < k → pageFullB (pages (i + j)) = true) →
    pageFullB (pages (i + k)) = false →
    ∃ res, query_history pages delta fuel i start = some res ∧
      res.2.length = k + 1 := by
  intro fuel
  induction fuel with
  | zero =>
    intro i start k hk _ _
    exact absurd hk (Nat.not_lt_zero k)
  | succ fuel ih =>
    intro i start k hk hfull hstop
    match k with
    | 0 =>
      rw [Nat.add_zero] at hstop
      simp only [query_history]
      split
      · exact ⟨_, rfl, rfl⟩
      next hst =>
        rw [ne_eq, not_not] at hst
        split
        next hdata => exact ⟨_, rfl, rfl⟩
        next hdata => exact ⟨_, rfl, rfl⟩
        next b bs hdata =>
          split
          next hlen => exact ⟨_, rfl, rfl⟩
          next hlen =>
            exfalso
            simp only [List.length_cons] at hlen
            simp [pageFullB, hst, hdata, List.length_cons] at hstop
            omega
    | Nat.succ k =>
      have h0 := hfull 0 (by omega)
      rw [Nat.add_zero] at h0
      simp only [pageFullB, Bool.and_eq_true] at h0
      have hst : (pages i).status / 100 = 2 := beq_iff_eq.mp h0.1
      obtain ⟨l, hdata, hlen⟩ : ∃ l, (pages i).data = some l ∧ 1999 ≤ l.length := by
        rcases hd : (pages i).data with _ | l
        · rw [hd] at h0
          exact absurd h0.2 (by simp)
        · refine ⟨l, rfl, ?_⟩
          have h2 := h0.2
          rw [hd] at h2
          exact of_decide_eq_true h2
      rcases l with _ | ⟨b, bs⟩
      · simp at hlen
      · obtain ⟨r2, hr2, hr2len⟩ := ih (i + 1) ((bs.getLastD b).id) k (by omega)
          (fun j hj => by
            have hf := hfull (j + 1) (by omega)
            rwa [show i + (j + 1) = i + 1 + j from by omega] at hf)
          (by rwa [show i + 1 + k = i + (k + 1) from by omega])
        refine ⟨(b :: bs ++ r2.1, (start, start + delta * 1999) :: r2.2), ?_, ?_⟩
        · simp only [query_history]
          rw [if_neg (by simp [hst])]
          simp only [hdata]
          rw [if_neg (by simp only [List.length_cons] at hlen ⊢; omega)]
          simp only [hr2]
        · simp [hr2len]

/-- C3: the pagination loop requests windows of exactly
interval times 1999 starting at the given start; each later window
starts at the last returned timestamp of the previous page; every
returned row of every 2xx page is appended; the loop stops exactly at
the first page that is non-2xx, empty, or shorter than 1999 rows; and
when the first k pages are full and page k stops, exactly k+1 requests
are made and all consumed rows are returned. -/
theorem c3_history_pagination (pages : Nat → KResp) (delta : Int)
    (fuel i : Nat) (start : Int) :
    (∀ res, query_history pages delta fuel i start = some res →
      (∀ w ∈ res.2, w.2 = w.1 + delta * 1999) ∧
      res.2[0]? = some (start, start + delta * 1999) ∧
      (∀ j w, res.2[j + 1]? = some w → w.1 = pageLastTs (pages (i + j))) ∧
      pageFullB (pages (i + (res.2.length - 1))) = false ∧
      (∀ j, j + 1 < res.2.length → pageFullB (pages (i + j)) = true) ∧
      res.1 = ((List.range res.2.length).map
        (fun j => consumedBars (pages (i + j)))).flatten) ∧
    (∀ k, k < fuel → (∀ j, j < k → pageFullB (pages (i + j)) = true) →
      pageFullB (pages (i + k)) = false →
      ∃ res, query_history pages delta fuel i start = some res ∧
        res.2.length = k + 1 ∧
        res.1 = ((List.range (k + 1)).map
          (fun j => consumedBars (pages (i + j)))).flatten) := by
  constructor
  · exact qh_sound pages delta fuel i start
  · intro k hk hfull hstop
    obtain ⟨res, hres, hlen⟩ :=
      qh_complete pages delta fuel i start k hk hfull hstop
    refine ⟨res, hres, hlen, ?_⟩
    have hbars := (qh_sound pages delta fuel i start res hres).2.2.2.2.2
    rwa [hlen] at hbars

/-- C3 witness: three pages of exactly 1999 bars followed by one page
of 500 bars yield 3 times 1999 plus 500 bars from exactly 4
requests. -/
theorem c3_history_pagination_witness :
    ∃ res, query_history pagesEx 60 10 0 0 = some res ∧
      res.2.length = 4 ∧ res.1.length = 3 * 1999 + 500 := by
  have hfullpage : ∀ n : List KBar,
      pageFullB ⟨200, some n⟩ = ((200 / 100 == 2) && decide (1999 ≤ n.length)) :=
    fun _ => rfl
  have hc : ∀ l : List KBar, consumedBars ⟨200, some l⟩ = l := by
    intro l
    simp [consumedBars, pageBars]
  obtain ⟨res, hres, hlen, hbars⟩ :=
    (c3_history_pagination pagesEx 60 10 0 0).2 3 (by omega)
      (by
        intro j hj
        interval_cases j
        · show pageFullB ⟨200, some (List.replicate 1999 sampleBar)⟩ = true
          rw [hfullpage, List.length_replicate]
          decide
        · show pageFullB ⟨200, some (List.replicate 1999 sampleBar)⟩ = true
          rw [hfullpage, List.length_replicate]
          decide
        · show pageFullB ⟨200, some (List.replicate 1999 sampleBar)⟩ = true
          rw [hfullpage, List.length_replicate]
          decide)
      (by
        show pageFullB ⟨200, some (List.replicate 500 sampleBar)⟩ = false
        rw [hfullpage, List.length_replicate]
        decide)
  refine ⟨res, hres, hlen, ?_⟩
  rw [hbars]
  rw [show List.range 4 = [0, 1, 2, 3] from by decide]
  simp only [List.map_cons, List.map_nil, List.flatten_cons, List.flatten_nil]
  rw [show pagesEx (0 + 0) = ⟨200, some (List.replicate 1999 sampleBar)⟩ from rfl,
      show pagesEx (0 + 1) = ⟨200, some (List.replicate 1999 sampleBar)⟩ from rfl,
      show pagesEx (0 + 2) = ⟨200, some (List.replicate 1999 sampleBar)⟩ from rfl,
      show pagesEx (0 + 3) = ⟨200, some (List.replicate 500 sampleBar)⟩ from rfl]
  rw [hc, hc, List.append_nil, List.length_append, List.length_append,
      List.length_append, List.length_replicate, List.length_replicate]

end Huobi
